import Mathlib

/-!
Shallow embedding of hnakamur/shardmap (src/map.go, the string-keyed `Map`):
a sharded, lock-per-shard hash map.  Locks are elided, so every operation is
a pure state transformer (this is the single-threaded semantics the claims
quantify over).  The runtime hash `memHashString` is an external collaborator
and is modelled as an opaque function field `hash`; `runtime.NumCPU()` is the
explicit parameter `numCPU`.  Each shard's Go built-in map is modelled as an
association list; `Option α` plays the role of the Go pair
`(value interface\x7b\x7d, ok bool)` - `none` is `(nil, false)`, `some v` is
`(v, true)`.
-/

namespace ShardMap

/-- Go built-in map lookup `v, ok := gm[k]` on the association-list model. -/
def goGet {α : Type} : List (String × α) → String → Option α
  | [], _ => none
  | (k0, v) :: rest, k => if k0 = k then some v else goGet rest k

/-- Go built-in map assignment `gm[k] = v`: replace the binding in place, or
append a fresh one. -/
def goSet {α : Type} : List (String × α) → String → α → List (String × α)
  | [], k, v => [(k, v)]
  | (k0, v0) :: rest, k, v =>
    if k0 = k then (k, v) :: rest else (k0, v0) :: goSet rest k v

/-- Go built-in `delete(gm, k)`. -/
def goDelete {α : Type} : List (String × α) → String → List (String × α)
  | [], _ => []
  | (k0, v0) :: rest, k =>
    if k0 = k then goDelete rest k else (k0, v0) :: goDelete rest k

/-- The `Map` struct of map.go.  The `mus` lock slice and the unused `seed`
field have no behavioural content here; `hash` stands for the ambient
`memHashString`. -/
structure Map (α : Type) where
  cap : Nat
  shards : Nat
  hash : String → Nat
  maps : List (List (String × α))

/-- The sizing loop of `initDo`:
`m.shards = 1; for m.shards < runtime.NumCPU()*16 { m.shards *= 2 }`,
as a function of the loop bound `target` and the running value `s`.  The code
enters the loop with `s = 1`, so the `0 < s` termination guard never changes
behaviour on any reachable input. -/
def shardsLoop (target : Nat) (s : Nat) : Nat :=
  if h : 0 < s ∧ s < target then shardsLoop target (2 * s) else s
termination_by target - s
decreasing_by omega

/-- `initDo`: build the shard table.  `scap := cap / shards` is only a
capacity hint for `make` and has no observable effect. -/
def Map.initDo {α : Type} (hash : String → Nat) (numCPU : Nat) (cap : Nat) :
    Map α :=
  let shards := shardsLoop (numCPU * 16) 1
  { cap := cap, shards := shards, hash := hash,
    maps := List.replicate shards [] }

/-- `New`: store the capacity hint and initialize eagerly. -/
def New {α : Type} (hash : String → Nat) (numCPU : Nat) (cap : Nat) : Map α :=
  Map.initDo hash numCPU cap

namespace Map

variable {α : Type}

/-- `choose`: route a key to a shard by masking its hash. -/
def choose (m : Map α) (key : String) : Nat :=
  m.hash key &&& (m.shards - 1)

/-- `Set`: record the previous binding, install the new value. -/
def Set (m : Map α) (key : String) (value : α) : Option α × Map α :=
  let shard := m.choose key
  let prev := goGet (m.maps.getD shard []) key
  (prev,
    { m with maps := m.maps.set shard (goSet (m.maps.getD shard []) key value) })

/-- `SetAccept`: tentatively install, consult `accept`, roll back on
rejection (delete the fresh key, or restore the previous value) and report
`(nil, false)`. -/
def SetAccept (m : Map α) (key : String) (value : α)
    (accept : Option (Option α → Bool)) : Option α × Map α :=
  let shard := m.choose key
  let sm := m.maps.getD shard []
  let prev := goGet sm key
  let sm1 := goSet sm key value
  match accept with
  | none => (prev, { m with maps := m.maps.set shard sm1 })
  | some f =>
    if f prev then (prev, { m with maps := m.maps.set shard sm1 })
    else
      match prev with
      | none => (none, { m with maps := m.maps.set shard (goDelete sm1 key) })
      | some p => (none, { m with maps := m.maps.set shard (goSet sm1 key p) })

/-- `Get`: shard lookup under the read lock. -/
def Get (m : Map α) (key : String) : Option α :=
  goGet (m.maps.getD (m.choose key) []) key

/-- `Delete`: record the previous binding, remove the key. -/
def Delete (m : Map α) (key : String) : Option α × Map α :=
  let shard := m.choose key
  let sm := m.maps.getD shard []
  (goGet sm key, { m with maps := m.maps.set shard (goDelete sm key) })

/-- `DeleteAccept`: tentatively delete, consult `accept`, restore the
previous value on rejection (when one existed) and report `(nil, false)`. -/
def DeleteAccept (m : Map α) (key : String)
    (accept : Option (Option α → Bool)) : Option α × Map α :=
  let shard := m.choose key
  let sm := m.maps.getD shard []
  let prev := goGet sm key
  let sm1 := goDelete sm key
  match accept with
  | none => (prev, { m with maps := m.maps.set shard sm1 })
  | some f =>
    if f prev then (prev, { m with maps := m.maps.set shard sm1 })
    else
      match prev with
      | some p => (none, { m with maps := m.maps.set shard (goSet sm1 key p) })
      | none => (none, { m with maps := m.maps.set shard sm1 })

/-- `Len`: sum of the per-shard sizes. -/
def Len (m : Map α) : Nat := (m.maps.map List.length).sum

/-- `Clear`: replace each shard's storage, in shard order, with an empty
map. -/
def Clear (m : Map α) : Map α :=
  { m with maps := (List.range m.shards).foldl (fun acc i => acc.set i []) m.maps }

/-- One shard's pass of `Range`: the trace of entries handed to `iter`
together with the `done` flag (`iter` returned false). -/
def rangeShard (iter : String → α → Bool) :
    List (String × α) → List (String × α) × Bool
  | [] => ([], false)
  | (k, v) :: rest =>
    if iter k v then
      let r := rangeShard iter rest
      ((k, v) :: r.1, r.2)
    else ([(k, v)], true)

/-- The shard loop of `Range`: stop as soon as a shard pass sets `done`. -/
def rangeShards (iter : String → α → Bool) :
    List (List (String × α)) → List (String × α)
  | [] => []
  | sm :: rest =>
    let r := rangeShard iter sm
    if r.2 then r.1 else r.1 ++ rangeShards iter rest

/-- `Range`, returning the trace of visits (one entry per `iter` call). -/
def Range (m : Map α) (iter : String → α → Bool) : List (String × α) :=
  rangeShards iter m.maps

/-- A map as produced by `New`/`initDo`: the storage sequence has length
`shards` and `shards` is a power of two. -/
def WF (m : Map α) : Prop :=
  m.maps.length = m.shards ∧ ∃ j, m.shards = 2 ^ j

/-- Fold `Set` over a list of key/value pairs (the "N Set calls" scenario). -/
def SetAll (m : Map α) (ps : List (String × α)) : Map α :=
  ps.foldl (fun acc p => (acc.Set p.1 p.2).2) m

end Map

/-! ### Lemmas about the Go built-in map model -/

variable {α : Type} {β : Type}

theorem goGet_goSet_self (l : List (String × α)) (k : String) (v : α) :
    goGet (goSet l k v) k = some v := by
  induction l with
  | nil => simp [goGet, goSet]
  | cons a rest ih =>
    obtain ⟨k0, v0⟩ := a
    by_cases h : k0 = k <;> simp [goGet, goSet, h, ih]

theorem goGet_goSet_ne (l : List (String × α)) {k k' : String} (v : α)
    (h : k' ≠ k) : goGet (goSet l k v) k' = goGet l k' := by
  induction l with
  | nil => simp [goGet, goSet, Ne.symm h]
  | cons a rest ih =>
    obtain ⟨k0, v0⟩ := a
    by_cases h0 : k0 = k
    · subst h0
      simp [goGet, goSet, Ne.symm h]
    · by_cases h1 : k0 = k' <;> simp [goGet, goSet, h0, h1, h, ih]

theorem goGet_goDelete_self (l : List (String × α)) (k : String) :
    goGet (goDelete l k) k = none := by
  induction l with
  | nil => simp [goGet, goDelete]
  | cons a rest ih =>
    obtain ⟨k0, v0⟩ := a
    by_cases h : k0 = k <;> simp [goGet, goDelete, h, ih]

theorem goDelete_of_get_none (l : List (String × α)) (k : String)
    (h : goGet l k = none) : goDelete l k = l := by
  induction l with
  | nil => simp [goDelete]
  | cons a rest ih =>
    obtain ⟨k0, v0⟩ := a
    by_cases h0 : k0 = k
    · simp [goGet, h0] at h
    · simp [goGet, h0] at h
      simp [goDelete, h0, ih h]

theorem goSet_goSet_restore (l : List (String × α)) {k : String} {p : α}
    (v : α) (h : goGet l k = some p) : goSet (goSet l k v) k p = l := by
  induction l with
  | nil => simp [goGet] at h
  | cons a rest ih =>
    obtain ⟨k0, v0⟩ := a
    by_cases h0 : k0 = k
    · subst h0
      simp [goGet] at h
      simp [goSet, h]
    · simp [goGet, h0] at h
      simp [goSet, h0, ih h]

theorem goDelete_goSet_of_none (l : List (String × α)) {k : String} (v : α)
    (h : goGet l k = none) : goDelete (goSet l k v) k = l := by
  induction l with
  | nil => simp [goSet, goDelete]
  | cons a rest ih =>
    obtain ⟨k0, v0⟩ := a
    by_cases h0 : k0 = k
    · simp [goGet, h0] at h
    · simp [goGet, h0] at h
      simp [goSet, goDelete, h0, ih h]

theorem goSet_length_of_none (l : List (String × α)) {k : String} (v : α)
    (h : goGet l k = none) : (goSet l k v).length = l.length + 1 := by
  induction l with
  | nil => simp [goSet]
  | cons a rest ih =>
    obtain ⟨k0, v0⟩ := a
    by_cases h0 : k0 = k
    · simp [goGet, h0] at h
    · simp [goGet, h0] at h
      simp [goSet, h0, ih h]

theorem goSet_length_of_some (l : List (String × α)) {k : String} {p : α}
    (v : α) (h : goGet l k = some p) : (goSet l k v).length = l.length := by
  induction l with
  | nil => simp [goGet] at h
  | cons a rest ih =>
    obtain ⟨k0, v0⟩ := a
    by_cases h0 : k0 = k
    · simp [goSet, h0]
    · simp [goGet, h0] at h
      simp [goSet, h0, ih h]

/-! ### Lemmas about list indexing -/

theorem set_getD_self (l : List β) (i : Nat) (d : β) :
    l.set i (l.getD i d) = l := by
  induction l generalizing i with
  | nil => simp
  | cons a rest ih =>
    cases i with
    | zero => simp
    | succ n => simpa using ih n

theorem getD_set_self (l : List β) (i : Nat) (x d : β) (h : i < l.length) :
    (l.set i x).getD i d = x := by
  simp [List.getD_eq_getElem?_getD, List.getElem?_set_self h]

theorem getD_set_ne (l : List β) {i j : Nat} (x d : β) (h : i ≠ j) :
    (l.set i x).getD j d = l.getD j d := by
  simp [List.getD_eq_getElem?_getD, List.getElem?_set_ne h]

theorem getD_replicate_nil (n i : Nat) :
    (List.replicate n ([] : List β)).getD i [] = [] := by
  simp only [List.getD_eq_getElem?_getD, List.getElem?_replicate]
  split <;> simp

theorem sumLen_set (l : List (List β)) (i : Nat) (x : List β)
    (h : i < l.length) :
    ((l.set i x).map List.length).sum + (l.getD i []).length =
      (l.map List.length).sum + x.length := by
  induction l generalizing i with
  | nil => simp at h
  | cons a rest ih =>
    cases i with
    | zero => simp; omega
    | succ n =>
      simp only [List.set_cons_succ, List.map_cons, List.sum_cons,
        List.getD_cons_succ]
      have := ih n (by simpa using h)
      omega

/-! ### The shard-sizing loop -/

theorem shardsLoop_spec (t a : Nat) :
    ∃ j, shardsLoop t (2 ^ a) = 2 ^ j ∧ t ≤ 2 ^ j ∧
      ∀ i, a ≤ i → t ≤ 2 ^ i → 2 ^ j ≤ 2 ^ i := by
  by_cases h : 2 ^ a < t
  · have hstep : shardsLoop t (2 ^ a) = shardsLoop t (2 ^ (a + 1)) := by
      rw [shardsLoop, dif_pos ⟨Nat.two_pow_pos a, h⟩, pow_succ, Nat.mul_comm]
    obtain ⟨j, hj1, hj2, hj3⟩ := shardsLoop_spec t (a + 1)
    refine ⟨j, hstep.trans hj1, hj2, fun i hi ht => hj3 i ?_ ht⟩
    have hai : a < i :=
      (Nat.pow_lt_pow_iff_right (by norm_num)).mp (lt_of_lt_of_le h ht)
    omega
  · refine ⟨a, ?_, Nat.le_of_not_lt h,
      fun i hi _ => Nat.pow_le_pow_right (by norm_num) hi⟩
    rw [shardsLoop, dif_neg]
    intro hc
    exact h hc.2
termination_by t - 2 ^ a
decreasing_by
  have h1 : 0 < 2 ^ a := Nat.two_pow_pos a
  omega

theorem New_shards_spec (n : Nat) :
    ∃ j, shardsLoop (n * 16) 1 = 2 ^ j ∧ n * 16 ≤ 2 ^ j ∧
      ∀ i, n * 16 ≤ 2 ^ i → 2 ^ j ≤ 2 ^ i := by
  obtain ⟨j, h1, h2, h3⟩ := shardsLoop_spec (n * 16) 0
  exact ⟨j, by simpa using h1, h2, fun i hi => h3 i (Nat.zero_le i) hi⟩

/-! ### Map-level helper lemmas -/

theorem getD_set_eval (l : List β) (i : Nat) (x d : β) :
    (l.set i x).getD i d = if i < l.length then x else d := by
  induction l generalizing i with
  | nil => simp
  | cons a rest ih =>
    cases i with
    | zero => simp
    | succ n => simpa using ih n

theorem getD_eq_of_le (l : List β) {i : Nat} (d : β) (h : l.length ≤ i) :
    l.getD i d = d := by
  rw [List.getD_eq_getElem?_getD, List.getElem?_eq_none h]
  rfl

namespace Map

theorem choose_lt_shards (m : Map α) (k : String)
    (hp : ∃ j, m.shards = 2 ^ j) : m.choose k < m.shards := by
  obtain ⟨j, hj⟩ := hp
  have h1 : m.hash k &&& (m.shards - 1) ≤ m.shards - 1 := Nat.and_le_right
  have h2 : 0 < m.shards := hj ▸ Nat.two_pow_pos j
  show m.hash k &&& (m.shards - 1) < m.shards
  omega

theorem choose_lt_maps (m : Map α) (k : String) (h : m.WF) :
    m.choose k < m.maps.length := by
  rw [h.1]
  exact choose_lt_shards m k h.2

theorem Set_fst (m : Map α) (k : String) (v : α) :
    (m.Set k v).1 = m.Get k := rfl

theorem WF_Set (m : Map α) (k : String) (v : α) (h : m.WF) :
    ((m.Set k v).2).WF := by
  obtain ⟨h1, h2⟩ := h
  exact ⟨by simpa [Map.Set] using h1, h2⟩

theorem Get_Set_self (m : Map α) (k : String) (v : α)
    (hlt : m.choose k < m.maps.length) : ((m.Set k v).2).Get k = some v := by
  show goGet ((m.maps.set (m.choose k)
      (goSet (m.maps.getD (m.choose k) []) k v)).getD (m.choose k) []) k = some v
  rw [getD_set_self _ _ _ _ hlt]
  exact goGet_goSet_self _ _ _

theorem Get_Set_ne (m : Map α) {k k' : String} (v : α) (hne : k' ≠ k) :
    ((m.Set k v).2).Get k' = m.Get k' := by
  show goGet ((m.maps.set (m.choose k)
      (goSet (m.maps.getD (m.choose k) []) k v)).getD (m.choose k') []) k' =
    goGet (m.maps.getD (m.choose k') []) k'
  by_cases hs : m.choose k' = m.choose k
  · rw [hs, getD_set_eval]
    by_cases hlt : m.choose k < m.maps.length
    · rw [if_pos hlt]
      exact goGet_goSet_ne _ _ hne
    · rw [if_neg hlt, getD_eq_of_le _ _ (Nat.le_of_not_lt hlt)]
  · rw [getD_set_ne _ _ _ (fun hc => hs hc.symm)]

theorem Len_Set_of_none (m : Map α) (k : String) (v : α)
    (hlt : m.choose k < m.maps.length) (h : m.Get k = none) :
    ((m.Set k v).2).Len = m.Len + 1 := by
  have hs := sumLen_set m.maps (m.choose k)
    (goSet (m.maps.getD (m.choose k) []) k v) hlt
  have hlen := goSet_length_of_none (m.maps.getD (m.choose k) []) v h
  show ((m.maps.set (m.choose k)
      (goSet (m.maps.getD (m.choose k) []) k v)).map List.length).sum =
    (m.maps.map List.length).sum + 1
  omega

theorem Get_Delete_self (m : Map α) (k : String) :
    ((m.Delete k).2).Get k = none := by
  show goGet ((m.maps.set (m.choose k)
      (goDelete (m.maps.getD (m.choose k) []) k)).getD (m.choose k) []) k = none
  rw [getD_set_eval]
  split
  · exact goGet_goDelete_self _ _
  · rfl

theorem SetAccept_shards (m : Map α) (k : String) (v : α)
    (a : Option (Option α → Bool)) :
    ((m.SetAccept k v a).2).shards = m.shards := by
  unfold Map.SetAccept
  cases a with
  | none => rfl
  | some f =>
    simp only []
    split
    · rfl
    · split <;> rfl

theorem DeleteAccept_shards (m : Map α) (k : String)
    (a : Option (Option α → Bool)) :
    ((m.DeleteAccept k a).2).shards = m.shards := by
  unfold Map.DeleteAccept
  cases a with
  | none => rfl
  | some f =>
    simp only []
    split
    · rfl
    · split <;> rfl

end Map

theorem New_WF (hash : String → Nat) (n c : Nat) :
    (New hash n c : Map α).WF := by
  obtain ⟨j, h1, _, _⟩ := New_shards_spec n
  exact ⟨by simp [New, Map.initDo], j, h1⟩

theorem New_Get (hash : String → Nat) (n c : Nat) (k : String) :
    (New hash n c : Map α).Get k = none := by
  show goGet ((List.replicate (shardsLoop (n * 16) 1)
      ([] : List (String × α))).getD _ []) k = none
  rw [getD_replicate_nil]
  rfl

theorem New_Len (hash : String → Nat) (n c : Nat) :
    (New hash n c : Map α).Len = 0 := by
  show ((List.replicate (shardsLoop (n * 16) 1)
      ([] : List (String × α))).map List.length).sum = 0
  simp

theorem SetAll_len (ps : List (String × α)) :
    ∀ (m : Map α), m.WF → (∀ p ∈ ps, m.Get p.1 = none) →
      ps.Pairwise (fun a b => a.1 ≠ b.1) →
      (Map.SetAll m ps).Len = m.Len + ps.length := by
  induction ps with
  | nil =>
    intro m _ _ _
    simp [Map.SetAll]
  | cons p ps ih =>
    intro m hwf habs hpw
    obtain ⟨hhead, htail⟩ := List.pairwise_cons.mp hpw
    have hlt : m.choose p.1 < m.maps.length := Map.choose_lt_maps m p.1 hwf
    have h0 : m.Get p.1 = none := habs p (List.mem_cons_self p ps)
    have hwf1 : ((m.Set p.1 p.2).2).WF := Map.WF_Set m p.1 p.2 hwf
    have habs1 : ∀ q ∈ ps, ((m.Set p.1 p.2).2).Get q.1 = none := by
      intro q hq
      rw [Map.Get_Set_ne m p.2 (Ne.symm (hhead q hq))]
      exact habs q (List.mem_cons_of_mem p hq)
    have hrec := ih ((m.Set p.1 p.2).2) hwf1 habs1 htail
    have hstep : ((m.Set p.1 p.2).2).Len = m.Len + 1 :=
      Map.Len_Set_of_none m p.1 p.2 hlt h0
    have hfold : Map.SetAll m (p :: ps) = Map.SetAll ((m.Set p.1 p.2).2) ps := rfl
    rw [hfold, hrec, hstep, List.length_cons]
    ring

/-- A concrete one-shard instance used to exercise the theorems on explicit
inputs. -/
def testMap : Map Int :=
  { cap := 0, shards := 1, hash := fun _ => 0, maps := [[("a", 1)]] }

theorem testMap_WF : testMap.WF := ⟨rfl, 0, rfl⟩

/-! ### The claims -/

/-- C1: for every key, value and map state, `SetAccept` with a predicate
that returns false leaves the map state exactly as it was before the call
(the freshly inserted key is removed, or the previous binding restored, in
place) and returns `(zero, false)` - here `none` - whether or not a previous
value existed. -/
theorem setAccept_reject_noop (m : Map α) (k : String) (v : α) :
    m.SetAccept k v (some (fun _ => false)) = (none, m) := by
  unfold Map.SetAccept
  cases hprev : goGet (m.maps.getD (m.choose k) []) k with
  | none =>
    simp only [hprev, Bool.false_eq_true, if_false]
    rw [goDelete_goSet_of_none _ v hprev, set_getD_self]
  | some p =>
    simp only [hprev, Bool.false_eq_true, if_false]
    rw [goSet_goSet_restore _ v hprev, set_getD_self]

/-- C2: for every key `k` bound to `v`, `DeleteAccept` with a predicate that
returns false reports `(zero, false)` - here `none` - and afterwards `Get k`
still returns `(v, true)` - here `some v`. -/
theorem deleteAccept_reject_restores (m : Map α) (k : String) (v : α)
    (h : m.Get k = some v) :
    (m.DeleteAccept k (some (fun _ => false))).1 = none ∧
      ((m.DeleteAccept k (some (fun _ => false))).2).Get k = some v := by
  have hprev : goGet (m.maps.getD (m.choose k) []) k = some v := h
  have hlt : m.choose k < m.maps.length := by
    by_contra hge
    rw [getD_eq_of_le _ _ (Nat.le_of_not_lt hge)] at hprev
    simp [goGet] at hprev
  constructor
  · unfold Map.DeleteAccept
    simp only [hprev, Bool.false_eq_true, if_false]
  · unfold Map.DeleteAccept
    simp only [hprev, Bool.false_eq_true, if_false]
    show goGet ((m.maps.set (m.choose k)
        (goSet (goDelete (m.maps.getD (m.choose k) []) k) k v)).getD
          (m.choose k) []) k = some v
    rw [getD_set_self _ _ _ _ hlt]
    exact goGet_goSet_self _ _ _

/-- Witness for C2 on a concrete input. -/
theorem deleteAccept_reject_restores_witness :
    testMap.Get "a" = some 1 ∧
      ((testMap.DeleteAccept "a" (some (fun _ => false))).1 = none ∧
        ((testMap.DeleteAccept "a" (some (fun _ => false))).2).Get "a" = some 1) :=
  ⟨by decide, deleteAccept_reject_restores testMap "a" 1 (by decide)⟩

/-- C3: in the single-threaded semantics, `Set k v` followed by `Get k` on
an initialized map returns `(v, true)` - here `some v`. -/
theorem set_get_roundtrip (m : Map α) (k : String) (v : α) (hwf : m.WF) :
    ((m.Set k v).2).Get k = some v :=
  Map.Get_Set_self m k v (Map.choose_lt_maps m k hwf)

/-- Witness for C3 on a concrete input. -/
theorem set_get_roundtrip_witness :
    testMap.WF ∧ ((testMap.Set "b" 7).2).Get "b" = some 7 :=
  ⟨testMap_WF, set_get_roundtrip testMap "b" 7 testMap_WF⟩

/-- C4: `Set` returns the value bound immediately before the call together
with the presence flag (`Option` encodes the pair), a first `Set` on an
absent key returns `(zero, false)` - here `none` - a second `Set` returns
the first value, and `Set` installs the new value. -/
theorem set_returns_previous (m : Map α) (k : String) (v1 v2 : α)
    (hwf : m.WF) (habs : m.Get k = none) :
    (∀ (m1 : Map α) (k1 : String) (w : α), (m1.Set k1 w).1 = m1.Get k1) ∧
      (m.Set k v1).1 = none ∧
      (((m.Set k v1).2).Set k v2).1 = some v1 ∧
      ((m.Set k v1).2).Get k = some v1 := by
  have hget : ((m.Set k v1).2).Get k = some v1 :=
    Map.Get_Set_self m k v1 (Map.choose_lt_maps m k hwf)
  exact ⟨fun _ _ _ => rfl, habs, hget, hget⟩

/-- Witness for C4 on a concrete input. -/
theorem set_returns_previous_witness :
    testMap.WF ∧ testMap.Get "b" = none ∧
      (testMap.Set "b" (5 : Int)).1 = none ∧
      (((testMap.Set "b" (5 : Int)).2).Set "b" 6).1 = some 5 :=
  ⟨testMap_WF, by decide,
    (set_returns_previous testMap "b" 5 6 testMap_WF (by decide)).2.1,
    (set_returns_previous testMap "b" 5 6 testMap_WF (by decide)).2.2.1⟩

/-- C9: a `nil` accept predicate makes `SetAccept` behave exactly like
`Set`, and `DeleteAccept` exactly like `Delete`: same returned pair, same
resulting map state. -/
theorem accept_nil_refines (m : Map α) (k : String) (v : α) :
    m.SetAccept k v none = m.Set k v ∧ m.DeleteAccept k none = m.Delete k :=
  ⟨rfl, rfl⟩

/-- C10: on an initialized map (storage sequence of length `shards`,
`shards` a power of two), `choose` always yields an index below `shards`
and hence inside the storage sequence, so the shard indexing performed by
the operations is in bounds. -/
theorem choose_in_bounds (m : Map α) (k : String) (hwf : m.WF) :
    m.choose k < m.shards ∧ m.choose k < m.maps.length :=
  ⟨Map.choose_lt_shards m k hwf.2, Map.choose_lt_maps m k hwf⟩

/-- Witness for C10 on a concrete input. -/
theorem choose_in_bounds_witness :
    testMap.WF ∧
      (testMap.choose "x" < testMap.shards ∧
        testMap.choose "x" < testMap.maps.length) :=
  ⟨testMap_WF, choose_in_bounds testMap "x" testMap_WF⟩

/-- The concrete spec scenario, carried out on any freshly initialized map
(all shards empty), for any hash collaborator. -/
theorem fresh_scenario (m0 : Map Int) (hwf : m0.WF)
    (hrep : m0.maps = List.replicate m0.shards []) :
    (m0.Set "a" 1).1 = none ∧
      ((m0.Set "a" (1 : Int)).2.Set "a" 2).1 = some 1 ∧
      ((m0.Set "a" (1 : Int)).2.Set "a" 2).2.Get "a" = some 2 ∧
      (((m0.Set "a" (1 : Int)).2.Set "a" 2).2.Delete "a").1 = some 2 ∧
      (((m0.Set "a" (1 : Int)).2.Set "a" 2).2.Delete "a").2.Get "a" = none ∧
      (((m0.Set "a" (1 : Int)).2.Set "a" 2).2.Delete "a").2.Len = 0 := by
  have hi : m0.choose "a" < m0.maps.length := Map.choose_lt_maps m0 "a" hwf
  have hsm0 : m0.maps.getD (m0.choose "a") [] = [] := by
    rw [hrep]
    exact getD_replicate_nil _ _
  have e1 : (m0.Set "a" (1 : Int)).1 = none := by
    show goGet (m0.maps.getD (m0.choose "a") []) "a" = none
    rw [hsm0]
    rfl
  have em1 : (m0.Set "a" (1 : Int)).2.maps =
      m0.maps.set (m0.choose "a") [("a", 1)] := by
    show m0.maps.set (m0.choose "a")
        (goSet (m0.maps.getD (m0.choose "a") []) "a" 1) = _
    rw [hsm0]
    rfl
  have hsm1 : (m0.Set "a" (1 : Int)).2.maps.getD (m0.choose "a") [] =
      [("a", 1)] := by
    rw [em1, getD_set_eval, if_pos hi]
  have e2 : ((m0.Set "a" (1 : Int)).2.Set "a" 2).1 = some 1 := by
    show goGet ((m0.Set "a" (1 : Int)).2.maps.getD (m0.choose "a") []) "a" =
      some 1
    rw [hsm1]
    simp [goGet]
  have em2 : ((m0.Set "a" (1 : Int)).2.Set "a" 2).2.maps =
      m0.maps.set (m0.choose "a") [("a", 2)] := by
    show (m0.Set "a" (1 : Int)).2.maps.set (m0.choose "a")
        (goSet ((m0.Set "a" (1 : Int)).2.maps.getD (m0.choose "a") []) "a" 2) =
      _
    rw [hsm1, em1, List.set_set]
    simp [goSet]
  have e3 : ((m0.Set "a" (1 : Int)).2.Set "a" 2).2.Get "a" = some 2 := by
    show goGet
        (((m0.Set "a" (1 : Int)).2.Set "a" 2).2.maps.getD (m0.choose "a") [])
        "a" = some 2
    rw [em2, getD_set_eval, if_pos hi]
    simp [goGet]
  have e4 : (((m0.Set "a" (1 : Int)).2.Set "a" 2).2.Delete "a").1 = some 2 :=
    e3
  have em3 : (((m0.Set "a" (1 : Int)).2.Set "a" 2).2.Delete "a").2.maps =
      m0.maps := by
    show ((m0.Set "a" (1 : Int)).2.Set "a" 2).2.maps.set (m0.choose "a")
        (goDelete
          (((m0.Set "a" (1 : Int)).2.Set "a" 2).2.maps.getD (m0.choose "a") [])
          "a") = m0.maps
    rw [em2, getD_set_eval, if_pos hi, List.set_set]
    have hgd : goDelete [(("a" : String), (2 : Int))] "a" = [] := by
      simp [goDelete]
    rw [hgd]
    conv_lhs => rw [← hsm0]
    exact set_getD_self _ _ _
  have e5 : (((m0.Set "a" (1 : Int)).2.Set "a" 2).2.Delete "a").2.Get "a" =
      none := by
    show goGet
        ((((m0.Set "a" (1 : Int)).2.Set "a" 2).2.Delete "a").2.maps.getD
          (m0.choose "a") []) "a" = none
    rw [em3, hsm0]
    rfl
  have e6 : (((m0.Set "a" (1 : Int)).2.Set "a" 2).2.Delete "a").2.Len = 0 := by
    show ((((m0.Set "a" (1 : Int)).2.Set "a" 2).2.Delete "a").2.maps.map
        List.length).sum = 0
    rw [em3, hrep]
    simp
  exact ⟨e1, e2, e3, e4, e5, e6⟩

/-- C5: `Delete` returns the previously bound value together with the
presence flag (`Option` encodes the pair) and leaves the key absent; and
the spec's concrete scenario New(0); Set "a" 1; Set "a" 2; Get "a";
Delete "a"; Get "a"; Len holds for every hash collaborator and CPU count. -/
theorem delete_semantics_scenario :
    (∀ (α : Type) (m : Map α) (k : String), (m.Delete k).1 = m.Get k) ∧
      (∀ (α : Type) (m : Map α) (k : String), ((m.Delete k).2).Get k = none) ∧
      ∀ (hash : String → Nat) (numCPU : Nat),
        ((New hash numCPU 0 : Map Int).Set "a" 1).1 = none ∧
        (((New hash numCPU 0 : Map Int).Set "a" (1 : Int)).2.Set "a" 2).1 =
          some 1 ∧
        (((New hash numCPU 0 : Map Int).Set "a" (1 : Int)).2.Set "a" 2).2.Get
          "a" = some 2 ∧
        ((((New hash numCPU 0 : Map Int).Set "a" (1 : Int)).2.Set "a"
          2).2.Delete "a").1 = some 2 ∧
        ((((New hash numCPU 0 : Map Int).Set "a" (1 : Int)).2.Set "a"
          2).2.Delete "a").2.Get "a" = none ∧
        ((((New hash numCPU 0 : Map Int).Set "a" (1 : Int)).2.Set "a"
          2).2.Delete "a").2.Len = 0 := by
  refine ⟨fun _ _ _ => rfl, fun _ m k => Map.Get_Delete_self m k, ?_⟩
  intro hash numCPU
  exact fresh_scenario (New hash numCPU 0) (New_WF hash numCPU 0) rfl

/-- C6: after `N` `Set` calls with `N` pairwise-distinct keys on a fresh
map and no deletes, `Len` returns `N`; in general `Len` is the sum over all
shards of that shard's entry count. -/
theorem len_after_distinct_sets (hash : String → Nat) (numCPU cap : Nat)
    (ps : List (String × α)) (hd : ps.Pairwise (fun a b => a.1 ≠ b.1)) :
    (Map.SetAll (New hash numCPU cap) ps).Len = ps.length ∧
      ∀ (m2 : Map α), m2.Len = (m2.maps.map List.length).sum := by
  have h := SetAll_len ps (New hash numCPU cap) (New_WF hash numCPU cap)
    (fun p _ => New_Get hash numCPU cap p.1) hd
  rw [New_Len] at h
  exact ⟨by omega, fun _ => rfl⟩

/-- Witness for C6 on a concrete input. -/
theorem len_after_distinct_sets_witness :
    ([(("a" : String), (1 : Int)), ("b", 2)].Pairwise
      (fun a b => a.1 ≠ b.1)) ∧
      (Map.SetAll (New (fun _ => 0) 1 0)
        [(("a" : String), (1 : Int)), ("b", 2)]).Len = 2 := by
  refine ⟨by decide, ?_⟩
  have h := (len_after_distinct_sets (fun _ => 0) 1 0
    [(("a" : String), (1 : Int)), ("b", 2)] (by decide)).1
  simpa using h

/-- C7: on every non-empty map, `Range` with a visitor that returns false
on its first invocation calls the visitor exactly once (the visit trace has
length one) and returns, visiting no further entries and no further
shards. -/
theorem range_short_circuit (m : Map α) (h : m.Len ≠ 0) :
    (m.Range (fun _ _ => false)).length = 1 := by
  have key : ∀ (ls : List (List (String × α))),
      (ls.map List.length).sum ≠ 0 →
      (Map.rangeShards (fun _ _ => false) ls).length = 1 := by
    intro ls
    induction ls with
    | nil =>
      intro hne
      simp at hne
    | cons sm rest ih =>
      intro hne
      cases sm with
      | nil =>
        have hrest : (rest.map List.length).sum ≠ 0 := by simpa using hne
        simpa [Map.rangeShards, Map.rangeShard] using ih hrest
      | cons e rest2 =>
        obtain ⟨k, v⟩ := e
        simp [Map.rangeShards, Map.rangeShard]
  exact key m.maps h

/-- Witness for C7 on a concrete input. -/
theorem range_short_circuit_witness :
    testMap.Len ≠ 0 ∧ (testMap.Range (fun _ _ => false)).length = 1 :=
  ⟨by decide, range_short_circuit testMap (by decide)⟩

/-- C8: after initialization the shard count is the smallest power of two
greater than or equal to 16 times the available parallelism (in particular
a power of two and never zero), no subsequent operation modifies it, and
every operation routes a key as `hash(key) &&& (shards - 1)`. -/
theorem shard_count_invariant (α : Type) (hash : String → Nat)
    (numCPU cap : Nat) :
    (∃ j, (New hash numCPU cap : Map α).shards = 2 ^ j) ∧
      numCPU * 16 ≤ (New hash numCPU cap : Map α).shards ∧
      (∀ i, numCPU * 16 ≤ 2 ^ i →
        (New hash numCPU cap : Map α).shards ≤ 2 ^ i) ∧
      0 < (New hash numCPU cap : Map α).shards ∧
      (∀ (m : Map α) (k : String) (v : α) (a : Option (Option α → Bool)),
        ((m.Set k v).2).shards = m.shards ∧
        ((m.SetAccept k v a).2).shards = m.shards ∧
        ((m.Delete k).2).shards = m.shards ∧
        ((m.DeleteAccept k a).2).shards = m.shards ∧
        m.Clear.shards = m.shards) ∧
      ∀ (m : Map α) (k : String), m.choose k = m.hash k &&& (m.shards - 1) := by
  obtain ⟨j, h1, h2, h3⟩ := New_shards_spec numCPU
  have hsh : (New hash numCPU cap : Map α).shards =
      shardsLoop (numCPU * 16) 1 := rfl
  refine ⟨⟨j, hsh ▸ h1⟩, ?_, ?_, ?_, ?_, fun _ _ => rfl⟩
  · rw [hsh, h1]
    exact h2
  · intro i hi
    rw [hsh, h1]
    exact h3 i hi
  · rw [hsh, h1]
    exact Nat.two_pow_pos j
  · intro m k v a
    exact ⟨rfl, Map.SetAccept_shards m k v a, rfl,
      Map.DeleteAccept_shards m k a, rfl⟩

end ShardMap
